import Mathlib

/-!
Verification of the doodle-platform drawing component
(src/src/CanvasComponent.tsx).

The development shallowly embeds the three algorithmically non-trivial
pieces of the source file:

* hexToRgba (lines 11-18): parsing of a hex color string into an RGBA
  quadruple;
* floodFill (lines 27-85): the stack-based 4-connected flood fill over the
  flat RGBA byte buffer returned by getImageData;
* the history buffer: historyState (lines 115-121), the seeding effect
  (lines 153-163), saveCanvasState (lines 165-179), undo and canUndo
  (lines 381-389).

Modelling conventions:

* JavaScript numbers that hold pixel coordinates are modelled as Int.  The
  source applies Math.floor to the seed coordinates; every coordinate the
  loop pushes afterwards is an exact integer, so the embedding works with
  the already-truncated integer coordinates and Math.floor is the identity.
* The Uint8ClampedArray returned by getImageData is modelled as a flat
  List Nat of length 4 * width * height (RGBA interleaved).  Reading an
  out-of-range or negative index yields Option.none, matching the
  JavaScript value undefined; a strict equality test between a byte and
  undefined is false, and undefined === undefined is true, which is exactly
  the equality of Option Nat.  Writing out of range is silently dropped,
  matching typed-array semantics (List.set out of range is the identity).
* The data-URL snapshot strings stored by the history are opaque to the
  algorithm, so history entries are modelled as Nat values.
-/

namespace Doodle

/-- RGBA color quadruple, as produced by hexToRgba and stored per pixel in
the image buffer. -/
@[ext]
structure Rgba where
  r : Nat
  g : Nat
  b : Nat
  a : Nat
deriving DecidableEq, Repr

/-- Value of one hexadecimal digit character, as used by parseInt(s, 16);
both lowercase and uppercase digits are accepted. -/
def hexDigitVal (c : Char) : Nat :=
  if '0' ≤ c ∧ c ≤ '9' then c.toNat - 48
  else if 'a' ≤ c ∧ c ≤ 'f' then c.toNat - 87
  else if 'A' ≤ c ∧ c ≤ 'F' then c.toNat - 55
  else 0

/-- Model of JavaScript parseInt(s, 16) on a string made of valid
hexadecimal digits: left fold accumulating base-16 digits. -/
def parseHexNat (s : List Char) : Nat :=
  s.foldl (fun acc c => acc * 16 + hexDigitVal c) 0

/-- Model of the string method replace("#", "") from hexToRgba: remove the
first occurrence of the # character. -/
def removeFirstHash : List Char → List Char
  | [] => []
  | c :: rest => if c = '#' then rest else c :: removeFirstHash rest

/-- hexToRgba, source lines 11-18.  The parsed value of a 6-digit string is
below 2^24, so the JavaScript signed 32-bit shifts and masks coincide with
the Nat operations used here. -/
def hexToRgba (hex : List Char) : Rgba :=
  let clean := removeFirstHash hex
  let bigint := parseHexNat clean
  let r := (bigint >>> 16) &&& 255
  let g := (bigint >>> 8) &&& 255
  let b := bigint &&& 255
  ⟨r, g, b, 255⟩

/-- Hexadecimal digit character (lowercase) for a value below 16; used only
to state the round-trip claim about hexToRgba. -/
def toHexDigit (n : Nat) : Char :=
  if n < 10 then Char.ofNat (48 + n) else Char.ofNat (87 + n)

/-- Two-digit hexadecimal rendering of a byte; used only to state the
round-trip claim about hexToRgba. -/
def toHexByte (n : Nat) : List Char :=
  [toHexDigit (n / 16), toHexDigit (n % 16)]

/-- Hex color string #RRGGBB for three byte channels; used only to state
the round-trip claim about hexToRgba. -/
def hexString (r g b : Nat) : List Char :=
  '#' :: (toHexByte r ++ toHexByte g ++ toHexByte b)

/-! ## The image buffer -/

/-- Read of index i of a typed array modelled as a list: undefined (none)
when the index is negative or past the end, as in JavaScript. -/
def jsGet (data : List Nat) (i : Int) : Option Nat :=
  if 0 ≤ i then data.get? i.toNat else none

/-- Write of index i of a typed array modelled as a list: out-of-range
writes are silently dropped, as for a Uint8ClampedArray. -/
def jsSet (data : List Nat) (i : Int) (v : Nat) : List Nat :=
  if 0 ≤ i then data.set i.toNat v else data

/-- colorsMatch, source lines 20-24: strict equality of the four bytes at
the flat offset idx against the four channels of b.  A strict comparison of
undefined against a number is false, and undefined against undefined is
true, which is the derived equality of Option Nat. -/
def colorsMatch (a : List Nat) (b : Rgba) (idx : Int) : Bool :=
  jsGet a idx == some b.r &&
  jsGet a (idx + 1) == some b.g &&
  jsGet a (idx + 2) == some b.b &&
  jsGet a (idx + 3) == some b.a

/-- Target color captured at the seed before the pass begins, source lines
39-44: four reads that may each be undefined when the seed is out of
bounds. -/
structure TColor where
  c0 : Option Nat
  c1 : Option Nat
  c2 : Option Nat
  c3 : Option Nat
deriving DecidableEq, Repr

/-- Flat base index of the pixel at integer coordinates (x, y), as computed
by the source: (y * width + x) * 4. -/
def pixBase (w : Nat) (x y : Int) : Int :=
  (y * w + x) * 4

/-- Coordinates inside the canvas rectangle [0,width) x [0,height). -/
def inBds (w h : Nat) (x y : Int) : Prop :=
  0 ≤ x ∧ x < w ∧ 0 ≤ y ∧ y < h

instance (w h : Nat) (x y : Int) : Decidable (inBds w h x y) := by
  unfold inBds; infer_instance

/-- Observer reading the RGBA quadruple of the pixel at (x, y); none when
any of its four bytes is out of range. -/
def pixelAt (w : Nat) (data : List Nat) (x y : Int) : Option Rgba :=
  match jsGet data (pixBase w x y), jsGet data (pixBase w x y + 1),
        jsGet data (pixBase w x y + 2), jsGet data (pixBase w x y + 3) with
  | some r, some g, some b, some a => some ⟨r, g, b, a⟩
  | _, _, _, _ => none

/-- Fill condition of the loop body, source lines 65-70: the pixel does not
already carry the fill color and its four bytes strictly equal the captured
target color. -/
def fillCond (w : Nat) (tc : TColor) (fc : Rgba) (data : List Nat) (x y : Int) : Bool :=
  let idx := pixBase w x y
  !colorsMatch data fc idx &&
  jsGet data idx == tc.c0 &&
  jsGet data (idx + 1) == tc.c1 &&
  jsGet data (idx + 2) == tc.c2 &&
  jsGet data (idx + 3) == tc.c3

/-- Write of the four fill bytes of the pixel at (x, y), source lines
72-75. -/
def writePixel (w : Nat) (fc : Rgba) (data : List Nat) (x y : Int) : List Nat :=
  let idx := pixBase w x y
  jsSet (jsSet (jsSet (jsSet data idx fc.r) (idx + 1) fc.g) (idx + 2) fc.b) (idx + 3) fc.a

/-- While loop of floodFill, source lines 58-82, with an explicit fuel
argument standing for the number of iterations still allowed.  The stack is
a cons list whose head is the top (JavaScript push/pop act on the array
end), so the source push order xi+1, xi-1, yi+1, yi-1 yields the cons order
below.  The fuel chosen by floodFill is proved sufficient, so adding fuel
does not change the result (see the termination claim). -/
def floodLoop (w h : Nat) (tc : TColor) (fc : Rgba) :
    Nat → List Nat → List (Int × Int) → List Nat
  | 0, data, _ => data
  | _ + 1, data, [] => data
  | n + 1, data, (x, y) :: rest =>
    if x < 0 ∨ (w : Int) ≤ x ∨ y < 0 ∨ (h : Int) ≤ y then
      floodLoop w h tc fc n data rest
    else if fillCond w tc fc data x y then
      floodLoop w h tc fc n (writePixel w fc data x y)
        ((x, y - 1) :: (x, y + 1) :: (x - 1, y) :: (x + 1, y) :: rest)
    else
      floodLoop w h tc fc n data rest

/-- floodFill, source lines 27-85, on the flat byte buffer of a canvas of
the given width and height.  The early return when the captured target
color already equals the fill color (lines 48-55) returns the buffer
unchanged; the final putImageData is the atomic replacement of the buffer
by the loop result. -/
def floodFill (w h : Nat) (data : List Nat) (startX startY : Int) (fillHex : List Char) :
    List Nat :=
  let targetIdx := pixBase w startX startY
  let targetColor : TColor :=
    ⟨jsGet data targetIdx, jsGet data (targetIdx + 1),
     jsGet data (targetIdx + 2), jsGet data (targetIdx + 3)⟩
  let fillColor := hexToRgba fillHex
  if targetColor.c0 == some fillColor.r && targetColor.c1 == some fillColor.g &&
     targetColor.c2 == some fillColor.b && targetColor.c3 == some fillColor.a then
    data
  else
    floodLoop w h targetColor fillColor (5 * w * h + 1) data [(startX, startY)]

/-! ## The history buffer -/

/-- historyState, source lines 115-121: the ordered snapshot entries and
the cursor (currentIndex).  Snapshot strings are opaque, modelled as Nat. -/
structure HistoryState where
  history : List Nat
  currentIndex : Int
deriving DecidableEq, Repr

/-- Capacity of the history buffer, source line 129. -/
def maxHistorySize : Nat := 20

/-- Model of Array.prototype.slice(0, e): a negative end counts from the
end of the array; the result is the prefix up to the clamped end index. -/
def jsSliceTo (l : List Nat) (e : Int) : List Nat :=
  if e < 0 then l.take ((l.length : Int) + e).toNat else l.take e.toNat

/-- Initial history state, source lines 119-120: no entries, cursor -1. -/
def initialHistoryState : HistoryState :=
  ⟨[], -1⟩

/-- Seeding effect once the canvas context is ready, source lines 153-163:
exactly one entry (the initial snapshot) at cursor 0. -/
def initialSeed (img : Nat) : HistoryState :=
  ⟨[img], 0⟩

/-- saveCanvasState, source lines 165-179: slice off everything after the
cursor, push the new snapshot, drop the oldest entry if the capacity of 20
is exceeded, and point the cursor at the last entry. -/
def saveCanvasState (img : Nat) (s : HistoryState) : HistoryState :=
  let history := jsSliceTo s.history (s.currentIndex + 1)
  let history := history ++ [img]
  let history := if maxHistorySize < history.length then history.tail else history
  ⟨history, (history.length : Int) - 1⟩

/-- undo, source lines 381-388: when the cursor is past the first entry,
decrement it and issue a restore request for the entry at the new cursor;
otherwise do nothing.  The second component is the restore request passed
to restoreCanvasState, none when no restore is issued. -/
def undo (s : HistoryState) : HistoryState × Option Nat :=
  if 0 < s.currentIndex then
    (⟨s.history, s.currentIndex - 1⟩, jsGet s.history (s.currentIndex - 1))
  else
    (s, none)

/-- canUndo, source line 389. -/
def canUndo (s : HistoryState) : Bool :=
  0 < s.currentIndex

/-- State part of undo, used when iterating undo. -/
def undoState (s : HistoryState) : HistoryState :=
  (undo s).1

/-! ## Spec-level observers used to state the claims -/

/-- 4-connectedness: (x2, y2) is an up/down/left/right neighbor of
(x1, y1); no diagonals. -/
def adj (x1 y1 x2 y2 : Int) : Prop :=
  (x2 = x1 + 1 ∧ y2 = y1) ∨ (x2 = x1 - 1 ∧ y2 = y1) ∨
  (x2 = x1 ∧ y2 = y1 + 1) ∨ (x2 = x1 ∧ y2 = y1 - 1)

instance (x1 y1 x2 y2 : Int) : Decidable (adj x1 y1 x2 y2) := by
  unfold adj; infer_instance

/-- Reachability from the seed (sx, sy) through a 4-connected path of
in-bounds pixels whose color in the original buffer equals the target
color t. -/
inductive Reach (w h : Nat) (orig : List Nat) (t : Rgba) (sx sy : Int) : Int → Int → Prop
  | refl : inBds w h sx sy → pixelAt w orig sx sy = some t →
      Reach w h orig t sx sy sx sy
  | step {x y x' y' : Int} : Reach w h orig t sx sy x y → adj x y x' y' →
      inBds w h x' y' → pixelAt w orig x' y' = some t →
      Reach w h orig t sx sy x' y'

/-- Pixel already rewritten by the pass: it carried the target color in the
original buffer and carries the fill color in the current buffer. -/
def Filled (w h : Nat) (orig : List Nat) (t fc : Rgba) (data : List Nat) (x y : Int) : Prop :=
  inBds w h x y ∧ pixelAt w orig x y = some t ∧ pixelAt w data x y = some fc

/-- Target color structure holding the four channels of a concrete color,
as captured at an in-bounds seed. -/
def tcOf (t : Rgba) : TColor :=
  ⟨some t.r, some t.g, some t.b, some t.a⟩

/-- Number of grid pixels currently satisfying the fill condition; the
termination measure of the loop is five times this count plus the stack
length. -/
def cntFill (w h : Nat) (tc : TColor) (fc : Rgba) (data : List Nat) : Nat :=
  ((Finset.range w ×ˢ Finset.range h).filter
    (fun p => fillCond w tc fc data (p.1 : Int) (p.2 : Int) = true)).card

/-- Termination measure of the flood-fill loop. -/
def loopMeasure (w h : Nat) (tc : TColor) (fc : Rgba) (data : List Nat)
    (stack : List (Int × Int)) : Nat :=
  5 * cntFill w h tc fc data + stack.length

/-- Invariant of the flood-fill loop, relating the evolving buffer and
stack to the original buffer, the captured target color and the seed. -/
structure LoopInv (w h : Nat) (orig : List Nat) (t fc : Rgba) (sx sy : Int)
    (data : List Nat) (stack : List (Int × Int)) : Prop where
  len : data.length = orig.length
  pres : ∀ x y, inBds w h x y →
    pixelAt w data x y = pixelAt w orig x y ∨
    (pixelAt w orig x y = some t ∧ pixelAt w data x y = some fc ∧
     Reach w h orig t sx sy x y)
  frontier : ∀ x y, Filled w h orig t fc data x y →
    ∀ x' y', adj x y x' y' → inBds w h x' y' → pixelAt w orig x' y' = some t →
    Filled w h orig t fc data x' y' ∨ (x', y') ∈ stack
  seedOk : Filled w h orig t fc data sx sy ∨ (sx, sy) ∈ stack
  stackOk : ∀ x y, (x, y) ∈ stack →
    (x = sx ∧ y = sy) ∨ ∃ x' y', Filled w h orig t fc data x' y' ∧ adj x' y' x y

/-- History-state invariant from the data-model section of the spec. -/
def Inv (s : HistoryState) : Prop :=
  (s.history ≠ [] → 0 ≤ s.currentIndex ∧ s.currentIndex < s.history.length) ∧
  (s.currentIndex = -1 ↔ s.history = []) ∧
  s.history.length ≤ maxHistorySize

instance (s : HistoryState) : Decidable (Inv s) := by
  unfold Inv; infer_instance

/-- Sequence of record operations, one per snapshot, left to right. -/
def recordAll (imgs : List Nat) (s : HistoryState) : HistoryState :=
  imgs.foldl (fun acc i => saveCanvasState i acc) s

/-- States whose cursor sits on the last entry of a non-empty,
capacity-respecting history; these are the states reached while recording
consecutively. -/
def CursorAtEnd (s : HistoryState) : Prop :=
  s.history ≠ [] ∧ s.history.length ≤ maxHistorySize ∧
  s.currentIndex = (s.history.length : Int) - 1

/-! ## History-buffer lemmas and claim theorems -/

theorem jsSliceTo_nonneg (l : List Nat) (e : Int) (he : 0 ≤ e) :
    jsSliceTo l e = l.take e.toNat := by
  unfold jsSliceTo
  rw [if_neg (by omega)]

theorem Inv.cursor_nonneg_add_one {s : HistoryState} (hInv : Inv s) :
    0 ≤ s.currentIndex + 1 := by
  obtain ⟨h1, h2, _⟩ := hInv
  rcases Decidable.em (s.history = []) with he | he
  · have := h2.mpr he; omega
  · have := h1 he; omega

/-- C3: undo is a no-op (state unchanged, no restore issued) when the
cursor is at or before the first entry; otherwise it decrements the cursor
by exactly one, leaves the entries unchanged, and issues a restore of the
entry now addressed by the cursor (which exists, by the invariant); and
canUndo holds exactly when the cursor is positive. -/
theorem undo_spec (s : HistoryState) (hInv : Inv s) :
    (s.currentIndex ≤ 0 → undo s = (s, none)) ∧
    (0 < s.currentIndex →
      (undo s).1.history = s.history ∧
      (undo s).1.currentIndex = s.currentIndex - 1 ∧
      (undo s).2 = s.history.get? (s.currentIndex - 1).toNat ∧
      ((undo s).2).isSome = true) ∧
    (canUndo s = true ↔ 0 < s.currentIndex) := by
  obtain ⟨h1, h2, _⟩ := hInv
  refine ⟨fun hle => ?_, fun hlt => ?_, ?_⟩
  · unfold undo
    rw [if_neg (by omega)]
  · have hne : s.history ≠ [] := by
      intro he
      have := h2.mpr he; omega
    have hbds := h1 hne
    unfold undo
    rw [if_pos hlt]
    refine ⟨rfl, rfl, ?_, ?_⟩
    · unfold jsGet
      rw [if_pos (by omega)]
    · unfold jsGet
      rw [if_pos (by omega)]
      have hlt' : (s.currentIndex - 1).toNat < s.history.length := by omega
      rw [List.get?_eq_get hlt']
      rfl
  · unfold canUndo
    simp [decide_eq_true_iff]

/-- Witness for the undo claim at the concrete state with entries [5, 7]
and cursor 1. -/
theorem undo_spec_witness :
    (undo ⟨[5, 7], 1⟩).1.currentIndex = 1 - 1 :=
  (((undo_spec ⟨[5, 7], 1⟩ (by decide)).2.1 (by decide)).2.1)

/-- C9: once the surface is ready the history is seeded with exactly one
entry at cursor 0, canUndo is false there, and canUndo is true after one
further record. -/
theorem initialSeed_canUndo (img img2 : Nat) :
    (initialSeed img).history = [img] ∧
    (initialSeed img).currentIndex = 0 ∧
    canUndo (initialSeed img) = false ∧
    canUndo (saveCanvasState img2 (initialSeed img)) = true := by
  refine ⟨rfl, rfl, rfl, ?_⟩
  simp [canUndo, saveCanvasState, initialSeed, jsSliceTo, maxHistorySize]

/-- C2: record keeps exactly the entries up to the cursor, appends the new
snapshot, points the cursor at the new last index, and when the resulting
entry count exceeds the capacity of 20 it drops exactly the single oldest
entry; in every case the cursor is the last index and addresses the newly
appended entry. -/
theorem saveCanvasState_spec (s : HistoryState) (img : Nat) (hInv : Inv s) :
    (saveCanvasState img s).history =
      (if (s.history.take (s.currentIndex + 1).toNat ++ [img]).length ≤ maxHistorySize
       then s.history.take (s.currentIndex + 1).toNat ++ [img]
       else (s.history.take (s.currentIndex + 1).toNat ++ [img]).drop 1) ∧
    (saveCanvasState img s).currentIndex =
      ((saveCanvasState img s).history.length : Int) - 1 ∧
    (saveCanvasState img s).history.getLast? = some img := by
  have hc : 0 ≤ s.currentIndex + 1 := hInv.cursor_nonneg_add_one
  simp only [saveCanvasState]
  rw [jsSliceTo_nonneg _ _ hc]
  by_cases hlen :
      (s.history.take (s.currentIndex + 1).toNat ++ [img]).length ≤ maxHistorySize
  · rw [if_pos hlen, if_neg (by simp only [maxHistorySize] at *; omega)]
    refine ⟨rfl, by trivial, ?_⟩
    rw [List.getLast?_append_cons]
    rfl
  · rw [if_neg hlen, if_pos (by simp only [maxHistorySize] at *; omega)]
    rw [List.drop_one]
    refine ⟨rfl, by trivial, ?_⟩
    have hne : s.history.take (s.currentIndex + 1).toNat ≠ [] := by
      intro he
      rw [he] at hlen
      simp [maxHistorySize] at hlen
    obtain ⟨k, krest, hk⟩ := List.exists_cons_of_ne_nil hne
    rw [hk, List.cons_append, List.tail_cons, List.getLast?_append_cons]
    rfl

/-- Witness for the record claim at the concrete state with entries
[1, 2, 3] and cursor 1: past-cursor entries are discarded and the new
snapshot 9 is appended. -/
theorem saveCanvasState_spec_witness :
    (saveCanvasState 9 ⟨[1, 2, 3], 1⟩).history.getLast? = some 9 :=
  (saveCanvasState_spec ⟨[1, 2, 3], 1⟩ 9 (by decide)).2.2

/-- Preservation of the invariant by record. -/
theorem saveCanvasState_inv (s : HistoryState) (img : Nat) (hInv : Inv s) :
    Inv (saveCanvasState img s) := by
  have hc : 0 ≤ s.currentIndex + 1 := hInv.cursor_nonneg_add_one
  have hcap : s.history.length ≤ maxHistorySize := hInv.2.2
  have hms : maxHistorySize = 20 := rfl
  simp only [saveCanvasState]
  rw [jsSliceTo_nonneg _ _ hc]
  have htk : (s.history.take (s.currentIndex + 1).toNat).length ≤ s.history.length :=
    by simp [List.length_take]
  have hap : (s.history.take (s.currentIndex + 1).toNat ++ [img]).length
      = (s.history.take (s.currentIndex + 1).toNat).length + 1 := by
    simp
  by_cases hlen :
      maxHistorySize < (s.history.take (s.currentIndex + 1).toNat ++ [img]).length
  · rw [if_pos hlen]
    unfold Inv
    dsimp only
    rw [List.length_tail]
    refine ⟨fun _ => ⟨by omega, by omega⟩, ⟨fun habs => by omega, fun habs => ?_⟩, by omega⟩
    have hlen0 : ((s.history.take (s.currentIndex + 1).toNat ++ [img]).tail).length = 0 := by
      rw [habs]; rfl
    rw [List.length_tail] at hlen0
    omega
  · rw [if_neg hlen]
    unfold Inv
    dsimp only
    refine ⟨fun _ => ⟨by omega, by omega⟩, ⟨fun habs => by omega, fun habs => ?_⟩, by omega⟩
    have := congrArg List.length habs
    simp at this

/-- Preservation of the invariant by undo. -/
theorem undoState_inv (s : HistoryState) (hInv : Inv s) :
    Inv (undoState s) := by
  obtain ⟨h1, h2, h3⟩ := hInv
  simp only [undoState, undo]
  by_cases hlt : 0 < s.currentIndex
  · rw [if_pos hlt]
    have hne : s.history ≠ [] := by
      intro he
      have := h2.mpr he; omega
    have hbds := h1 hne
    unfold Inv
    dsimp only
    exact ⟨fun _ => ⟨by omega, by omega⟩,
      ⟨fun habs => by omega, fun habs => absurd habs hne⟩, h3⟩
  · rw [if_neg hlt]
    exact ⟨h1, h2, h3⟩

/-- C6: the history invariant (cursor within bounds when non-empty, cursor
-1 exactly when empty, at most 20 entries) holds in the initial state, in
every seeded state, and is preserved by record (also performed by clear)
and by undo. -/
theorem history_invariant :
    Inv initialHistoryState ∧
    (∀ img, Inv (initialSeed img)) ∧
    (∀ s img, Inv s → Inv (saveCanvasState img s)) ∧
    (∀ s, Inv s → Inv (undoState s)) :=
  ⟨by decide, fun img => ⟨fun _ => by constructor <;> simp [initialSeed],
      by simp [initialSeed], by simp [initialSeed, maxHistorySize]⟩,
    fun s img hInv => saveCanvasState_inv s img hInv,
    fun s hInv => undoState_inv s hInv⟩

/-- Witness for the invariant claim: the invariant holds after recording a
snapshot from the initial state. -/
theorem history_invariant_witness :
    Inv (saveCanvasState 5 initialHistoryState) :=
  history_invariant.2.2.1 initialHistoryState 5 history_invariant.1

/-- Record on a state whose cursor already sits at the end: nothing is
truncated, the snapshot is appended, and the head is evicted exactly when
the history was full. -/
theorem saveCanvasState_cursorAtEnd (s : HistoryState) (img : Nat) (h : CursorAtEnd s) :
    saveCanvasState img s =
      if s.history.length = maxHistorySize
      then ⟨s.history.tail ++ [img], (maxHistorySize : Int) - 1⟩
      else ⟨s.history ++ [img], (s.history.length : Int)⟩ := by
  obtain ⟨hne, hcap, hcur⟩ := h
  have hpos : 0 < s.history.length := List.length_pos.mpr hne
  simp only [saveCanvasState]
  rw [hcur]
  have he1 : (s.history.length : Int) - 1 + 1 = (s.history.length : Int) := by ring
  rw [he1, jsSliceTo_nonneg _ _ (by positivity), Int.toNat_natCast, List.take_length]
  have hap : (s.history ++ [img]).length = s.history.length + 1 := by simp
  by_cases hfull : s.history.length = maxHistorySize
  · rw [if_pos (by omega), if_pos hfull]
    obtain ⟨hd, tl, hH⟩ := List.exists_cons_of_ne_nil hne
    rw [HistoryState.mk.injEq]
    constructor
    · rw [hH, List.cons_append, List.tail_cons, List.tail_cons]
    · rw [List.length_tail, hap, hfull]
      omega
  · rw [if_neg (by omega), if_neg hfull]
    rw [HistoryState.mk.injEq]
    refine ⟨rfl, ?_⟩
    rw [hap]
    push_cast
    ring

/-- Folding record over a sequence of snapshots keeps exactly the most
recent capacity-many entries of the concatenated timeline and leaves the
cursor on the last entry. -/
theorem recordAll_cursorAtEnd_eq (imgs : List Nat) : ∀ s, CursorAtEnd s →
    recordAll imgs s =
      ⟨(s.history ++ imgs).drop (s.history.length + imgs.length - maxHistorySize),
       ((min (s.history.length + imgs.length) maxHistorySize : Nat) : Int) - 1⟩ := by
  induction imgs with
  | nil =>
    intro s hs
    obtain ⟨hne, hcap, hcur⟩ := hs
    obtain ⟨H, c⟩ := s
    simp only [recordAll, List.foldl_nil, List.append_nil, List.length_nil, Nat.add_zero]
    rw [HistoryState.mk.injEq]
    constructor
    · rw [Nat.sub_eq_zero_of_le hcap, List.drop_zero]
    · have hcur' : c = (H.length : Int) - 1 := hcur
      have hcap' : H.length ≤ maxHistorySize := hcap
      omega
  | cons i rest ih =>
    intro s hs
    have hstep : recordAll (i :: rest) s = recordAll rest (saveCanvasState i s) := rfl
    rw [hstep, saveCanvasState_cursorAtEnd s i hs]
    obtain ⟨hne, hcap, hcur⟩ := hs
    have hpos : 0 < s.history.length := List.length_pos.mpr hne
    obtain ⟨hd, tl, hH⟩ := List.exists_cons_of_ne_nil hne
    by_cases hfull : s.history.length = maxHistorySize
    · rw [if_pos hfull]
      have hfull' : tl.length + 1 = maxHistorySize := by
        rw [hH] at hfull
        simpa using hfull
      have htl : (s.history.tail ++ [i]).length = s.history.length := by
        rw [List.length_append, List.length_tail]
        simp only [List.length_singleton]
        omega
      have h' : CursorAtEnd ⟨s.history.tail ++ [i], (maxHistorySize : Int) - 1⟩ := by
        refine ⟨by simp, by simp only [htl]; omega, ?_⟩
        simp only [htl, hfull]
      rw [ih _ h']
      rw [HistoryState.mk.injEq]
      constructor
      · rw [hH]
        have e1 : ((hd :: tl).tail ++ [i]).length + rest.length - maxHistorySize
            = tl.length + 1 + rest.length - maxHistorySize := by
          simp only [List.tail_cons, List.length_append, List.length_singleton]
        have e2 : (hd :: tl).length + (i :: rest).length - maxHistorySize
            = (tl.length + 1 + rest.length - maxHistorySize) + 1 := by
          simp only [List.length_cons]
          omega
        rw [e1, e2, List.tail_cons, List.cons_append, List.drop_succ_cons,
          List.append_assoc, List.singleton_append]
      · rw [hH]
        simp only [List.tail_cons, List.length_append, List.length_singleton,
          List.length_cons, List.length_nil]
        omega
    · rw [if_neg hfull]
      have h' : CursorAtEnd ⟨s.history ++ [i], (s.history.length : Int)⟩ := by
        refine ⟨by simp, ?_, ?_⟩
        · simp only [List.length_append, List.length_singleton]
          omega
        · simp only [List.length_append, List.length_singleton]
          push_cast
          ring
      rw [ih _ h']
      rw [HistoryState.mk.injEq]
      constructor
      · have e1 : (s.history ++ [i]).length + rest.length - maxHistorySize
            = s.history.length + (i :: rest).length - maxHistorySize := by
          simp only [List.length_append, List.length_singleton, List.length_cons,
            List.length_nil]
          omega
        rw [e1, List.append_assoc, List.singleton_append]
      · simp only [List.length_append, List.length_singleton, List.length_cons,
          List.length_nil]
        omega

/-- Iterating undo k times, while the cursor allows it, decrements the
cursor by k and leaves the entries unchanged. -/
theorem undoState_iterate (k : Nat) : ∀ s : HistoryState, (k : Int) ≤ s.currentIndex →
    undoState^[k] s = ⟨s.history, s.currentIndex - k⟩ := by
  induction k with
  | zero =>
    intro s _
    obtain ⟨H, c⟩ := s
    simp
  | succ k ih =>
    intro s hk
    rw [Function.iterate_succ_apply]
    have hpos : 0 < s.currentIndex := by
      have : ((k : Int) + 1) ≤ s.currentIndex := by push_cast at hk; omega
      omega
    have h1 : undoState s = ⟨s.history, s.currentIndex - 1⟩ := by
      simp only [undoState, undo]
      rw [if_pos hpos]
    rw [h1, ih _ (by simp only; push_cast at hk ⊢; omega)]
    rw [HistoryState.mk.injEq]
    refine ⟨rfl, ?_⟩
    simp only
    push_cast
    ring

/-- C4: recording more than 20 snapshots onto the seeded single-entry
history retains exactly the 20 most recent snapshots with the cursor on the
last index; 19 undo operations then bring the cursor to index 0, the oldest
retained entry, and a further undo changes nothing. -/
theorem history_capacity (img0 : Nat) (imgs : List Nat) (hN : 20 < imgs.length) :
    (recordAll imgs (initialSeed img0)).history = imgs.drop (imgs.length - 20) ∧
    (recordAll imgs (initialSeed img0)).history.length = 20 ∧
    (recordAll imgs (initialSeed img0)).currentIndex = 19 ∧
    undoState^[19] (recordAll imgs (initialSeed img0)) =
      ⟨(recordAll imgs (initialSeed img0)).history, 0⟩ ∧
    undoState ⟨(recordAll imgs (initialSeed img0)).history, 0⟩ =
      ⟨(recordAll imgs (initialSeed img0)).history, 0⟩ := by
  have hseed : CursorAtEnd (initialSeed img0) :=
    ⟨by simp [initialSeed], by simp [initialSeed, maxHistorySize], by simp [initialSeed]⟩
  have h := recordAll_cursorAtEnd_eq imgs (initialSeed img0) hseed
  simp only [initialSeed, List.length_singleton, List.singleton_append] at h
  have hsub : 1 + imgs.length - maxHistorySize = (imgs.length - 20) + 1 := by
    simp only [maxHistorySize]
    omega
  have hmin : min (1 + imgs.length) maxHistorySize = 20 := by
    simp only [maxHistorySize]
    omega
  rw [hsub, hmin, List.drop_succ_cons] at h
  have h0 : initialSeed img0 = ({ history := [img0], currentIndex := 0 } : HistoryState) := rfl
  rw [h0, h]
  refine ⟨rfl, ?_, ?_, ?_, ?_⟩
  · dsimp only
    rw [List.length_drop]
    omega
  · dsimp only
    norm_num
  · rw [undoState_iterate 19 _ (by dsimp only; norm_num)]
    dsimp only
    norm_num [HistoryState.mk.injEq]
  · simp [undoState, undo]

/-- Witness for the capacity claim after recording the 21 snapshots
0, ..., 20 onto the seeded history. -/
theorem history_capacity_witness :
    (recordAll (List.range 21) (initialSeed 0)).currentIndex = 19 :=
  (history_capacity 0 (List.range 21) (by simp)).2.2.1

/-! ## Color parsing -/

theorem hexDigitVal_toHexDigit : ∀ d, d < 16 → hexDigitVal (toHexDigit d) = d := by
  decide

theorem removeFirstHash_hexString (r g b : Nat) :
    removeFirstHash (hexString r g b) = toHexByte r ++ toHexByte g ++ toHexByte b := by
  simp [hexString, removeFirstHash]

theorem parseHexNat_hexBytes (r g b : Nat) (hr : r < 256) (hg : g < 256) (hb : b < 256) :
    parseHexNat (toHexByte r ++ toHexByte g ++ toHexByte b)
      = r * 65536 + g * 256 + b := by
  simp only [toHexByte, parseHexNat, List.cons_append, List.nil_append, List.foldl_cons,
    List.foldl_nil]
  rw [hexDigitVal_toHexDigit (r / 16) (by omega), hexDigitVal_toHexDigit (r % 16) (by omega),
    hexDigitVal_toHexDigit (g / 16) (by omega), hexDigitVal_toHexDigit (g % 16) (by omega),
    hexDigitVal_toHexDigit (b / 16) (by omega), hexDigitVal_toHexDigit (b % 16) (by omega)]
  omega

theorem nat_and_255 (x : Nat) : x &&& 255 = x % 256 := by
  have h := Nat.and_pow_two_sub_one_eq_mod x 8
  norm_num at h
  exact h

/-- C10: parsing the hex color string RRGGBB prefixed with the # character
yields exactly the quadruple (R, G, B, 255); each channel of the result
lies in [0, 255] because each input channel does. -/
theorem hexToRgba_spec (r g b : Nat) (hr : r < 256) (hg : g < 256) (hb : b < 256) :
    hexToRgba (hexString r g b) = ⟨r, g, b, 255⟩ := by
  simp only [hexToRgba, removeFirstHash_hexString, parseHexNat_hexBytes r g b hr hg hb]
  have e1 : (r * 65536 + g * 256 + b) >>> 16 = r := by
    rw [Nat.shiftRight_eq_div_pow]
    norm_num
    omega
  have e2 : (r * 65536 + g * 256 + b) >>> 8 = r * 256 + g := by
    rw [Nat.shiftRight_eq_div_pow]
    norm_num
    omega
  rw [e1, e2, nat_and_255, nat_and_255, nat_and_255, Rgba.mk.injEq]
  refine ⟨by omega, by omega, by omega, rfl⟩

/-- Witness for the color-parsing claim at channels (18, 52, 86), the
string 123456 prefixed with the # character. -/
theorem hexToRgba_spec_witness : hexToRgba (hexString 18 52 86) = ⟨18, 52, 86, 255⟩ :=
  hexToRgba_spec 18 52 86 (by decide) (by decide) (by decide)

/-! ## Flood fill: byte-level read and write lemmas -/

theorem jsSet_length (data : List Nat) (i : Int) (v : Nat) :
    (jsSet data i v).length = data.length := by
  unfold jsSet
  split <;> simp

theorem writePixel_length (w : Nat) (fc : Rgba) (data : List Nat) (x y : Int) :
    (writePixel w fc data x y).length = data.length := by
  unfold writePixel
  simp only [jsSet_length]

theorem jsGet_jsSet_ne (data : List Nat) (i j : Int) (v : Nat) (hne : i ≠ j) :
    jsGet (jsSet data i v) j = jsGet data j := by
  unfold jsGet jsSet
  by_cases h0 : 0 ≤ i
  · rw [if_pos h0]
    by_cases h1 : 0 ≤ j
    · rw [if_pos h1, if_pos h1, List.get?_set_ne]
      omega
    · rw [if_neg h1, if_neg h1]
  · rw [if_neg h0]

theorem jsGet_jsSet_self (data : List Nat) (i : Int) (v : Nat) (h0 : 0 ≤ i)
    (hlen : i.toNat < data.length) :
    jsGet (jsSet data i v) i = some v := by
  unfold jsGet jsSet
  rw [if_pos h0, if_pos h0, List.get?_set_eq_of_lt v hlen]

theorem pixLinear_ne (w h : Nat) {x y x' y' : Int} (hp : inBds w h x y)
    (hq : inBds w h x' y') (hne : ¬(x = x' ∧ y = y')) :
    y * w + x ≠ y' * w + x' := by
  obtain ⟨hx0, hxw, hy0, hyh⟩ := hp
  obtain ⟨hx0', hxw', hy0', hyh'⟩ := hq
  rcases lt_trichotomy y y' with hy | hy | hy
  · have h1 : (y + 1) * (w : Int) ≤ y' * w :=
      mul_le_mul_of_nonneg_right (by omega) (by positivity)
    have h2 : (y + 1) * (w : Int) = y * w + w := by ring
    omega
  · subst hy
    have hxne : x ≠ x' := by
      intro he
      exact hne ⟨he, rfl⟩
    omega
  · have h1 : (y' + 1) * (w : Int) ≤ y * w :=
      mul_le_mul_of_nonneg_right (by omega) (by positivity)
    have h2 : (y' + 1) * (w : Int) = y' * w + w := by ring
    omega

theorem pixBase_add_ne (w h : Nat) {x y x' y' : Int} (hp : inBds w h x y)
    (hq : inBds w h x' y') (hne : ¬(x = x' ∧ y = y')) (i j : Int)
    (hi0 : 0 ≤ i) (hi4 : i < 4) (hj0 : 0 ≤ j) (hj4 : j < 4) :
    pixBase w x y + i ≠ pixBase w x' y' + j := by
  have hl := pixLinear_ne w h hp hq hne
  unfold pixBase
  omega

theorem pixBase_nonneg (w h : Nat) {x y : Int} (hin : inBds w h x y) :
    0 ≤ pixBase w x y := by
  obtain ⟨hx0, hxw, hy0, hyh⟩ := hin
  unfold pixBase
  have h1 : 0 ≤ y * (w : Int) := mul_nonneg hy0 (by positivity)
  omega

theorem pixBase_add_lt (w h : Nat) {x y : Int} (hin : inBds w h x y) (i : Int)
    (hi0 : 0 ≤ i) (hi4 : i < 4) :
    (pixBase w x y + i).toNat < 4 * w * h := by
  have hb := pixBase_nonneg w h hin
  obtain ⟨hx0, hxw, hy0, hyh⟩ := hin
  have key : pixBase w x y + i < ((4 * w * h : Nat) : Int) := by
    unfold pixBase
    have h1 : y * (w : Int) ≤ ((h : Int) - 1) * w :=
      mul_le_mul_of_nonneg_right (by omega) (by positivity)
    have h2 : ((h : Int) - 1) * (w : Int) = (h : Int) * w - w := by ring
    have h3 : ((4 * w * h : Nat) : Int) = 4 * ((h : Int) * w) := by push_cast; ring
    omega
  omega

theorem jsGet_writePixel_outside (w h : Nat) (fc : Rgba) (data : List Nat) {x y : Int}
    (_hp : inBds w h x y) {k : Int}
    (hk : ∀ i : Int, 0 ≤ i → i < 4 → k ≠ pixBase w x y + i) :
    jsGet (writePixel w fc data x y) k = jsGet data k := by
  unfold writePixel
  rw [jsGet_jsSet_ne _ _ _ _ (by have := hk 3 (by norm_num) (by norm_num); omega),
    jsGet_jsSet_ne _ _ _ _ (by have := hk 2 (by norm_num) (by norm_num); omega),
    jsGet_jsSet_ne _ _ _ _ (by have := hk 1 (by norm_num) (by norm_num); omega),
    jsGet_jsSet_ne _ _ _ _ (by have := hk 0 (by norm_num) (by norm_num); omega)]

theorem pixelAt_writePixel_other (w h : Nat) (fc : Rgba) (data : List Nat)
    {x y x' y' : Int} (hp : inBds w h x y) (hq : inBds w h x' y')
    (hne : ¬(x' = x ∧ y' = y)) :
    pixelAt w (writePixel w fc data x y) x' y' = pixelAt w data x' y' := by
  have hs : ∀ j : Int, 0 ≤ j → j < 4 →
      jsGet (writePixel w fc data x y) (pixBase w x' y' + j)
        = jsGet data (pixBase w x' y' + j) := by
    intro j hj0 hj4
    refine jsGet_writePixel_outside w h fc data hp ?_
    intro i hi0 hi4
    have := pixBase_add_ne w h hq hp hne j i hj0 hj4 hi0 hi4
    omega
  unfold pixelAt
  have h0 := hs 0 (by norm_num) (by norm_num)
  have h1 := hs 1 (by norm_num) (by norm_num)
  have h2 := hs 2 (by norm_num) (by norm_num)
  have h3 := hs 3 (by norm_num) (by norm_num)
  rw [Int.add_zero] at h0
  rw [h0, h1, h2, h3]

theorem pixelAt_writePixel_self (w h : Nat) (fc : Rgba) (data : List Nat) {x y : Int}
    (hin : inBds w h x y) (hlen : data.length = 4 * w * h) :
    pixelAt w (writePixel w fc data x y) x y = some fc := by
  have hb := pixBase_nonneg w h hin
  have hwl : ∀ d : List Nat, d.length = data.length → ∀ i : Int, 0 ≤ i → i < 4 →
      (pixBase w x y + i).toNat < d.length := by
    intro d hd i hi0 hi4
    rw [hd, hlen]
    exact pixBase_add_lt w h hin i hi0 hi4
  have ha : jsGet (writePixel w fc data x y) (pixBase w x y + 3) = some fc.a := by
    unfold writePixel
    exact jsGet_jsSet_self _ _ _ (by omega)
      (by
        have := hwl (jsSet (jsSet (jsSet data (pixBase w x y) fc.r)
          (pixBase w x y + 1) fc.g) (pixBase w x y + 2) fc.b)
          (by simp only [jsSet_length]) 3 (by norm_num) (by norm_num)
        exact this)
  have hbl : jsGet (writePixel w fc data x y) (pixBase w x y + 2) = some fc.b := by
    unfold writePixel
    rw [jsGet_jsSet_ne _ _ _ _ (by omega)]
    exact jsGet_jsSet_self _ _ _ (by omega)
      (by
        have := hwl (jsSet (jsSet data (pixBase w x y) fc.r) (pixBase w x y + 1) fc.g)
          (by simp only [jsSet_length]) 2 (by norm_num) (by norm_num)
        exact this)
  have hg : jsGet (writePixel w fc data x y) (pixBase w x y + 1) = some fc.g := by
    unfold writePixel
    rw [jsGet_jsSet_ne _ _ _ _ (by omega), jsGet_jsSet_ne _ _ _ _ (by omega)]
    exact jsGet_jsSet_self _ _ _ (by omega)
      (by
        have := hwl (jsSet data (pixBase w x y) fc.r)
          (by simp only [jsSet_length]) 1 (by norm_num) (by norm_num)
        exact this)
  have hr : jsGet (writePixel w fc data x y) (pixBase w x y) = some fc.r := by
    unfold writePixel
    rw [jsGet_jsSet_ne _ _ _ _ (by omega), jsGet_jsSet_ne _ _ _ _ (by omega),
      jsGet_jsSet_ne _ _ _ _ (by omega)]
    exact jsGet_jsSet_self _ _ _ hb
      (by have := hwl data rfl 0 (by norm_num) (by norm_num); omega)
  unfold pixelAt
  rw [hr, hg, hbl, ha]

/-! ## Flood fill: pixel-level bridges -/

theorem jsGet_eq_some (data : List Nat) (i : Int) (h0 : 0 ≤ i)
    (hlt : i.toNat < data.length) : ∃ v, jsGet data i = some v := by
  unfold jsGet
  rw [if_pos h0, List.get?_eq_get hlt]
  exact ⟨_, rfl⟩

theorem pixelAt_isSome (w h : Nat) (data : List Nat) {x y : Int}
    (hin : inBds w h x y) (hlen : data.length = 4 * w * h) :
    ∃ t : Rgba, pixelAt w data x y = some t := by
  have hb := pixBase_nonneg w h hin
  have hl : ∀ i : Int, 0 ≤ i → i < 4 → (pixBase w x y + i).toNat < data.length := by
    intro i hi0 hi4
    rw [hlen]
    exact pixBase_add_lt w h hin i hi0 hi4
  obtain ⟨r, hr⟩ := jsGet_eq_some data (pixBase w x y) hb
    (by have := hl 0 (by norm_num) (by norm_num); omega)
  obtain ⟨g, hg⟩ := jsGet_eq_some data (pixBase w x y + 1) (by omega)
    (hl 1 (by norm_num) (by norm_num))
  obtain ⟨b, hbb⟩ := jsGet_eq_some data (pixBase w x y + 2) (by omega)
    (hl 2 (by norm_num) (by norm_num))
  obtain ⟨a, ha⟩ := jsGet_eq_some data (pixBase w x y + 3) (by omega)
    (hl 3 (by norm_num) (by norm_num))
  refine ⟨⟨r, g, b, a⟩, ?_⟩
  unfold pixelAt
  rw [hr, hg, hbb, ha]

theorem pixelAt_eq_some_iff (w : Nat) (data : List Nat) (x y : Int) (t : Rgba) :
    pixelAt w data x y = some t ↔
      jsGet data (pixBase w x y) = some t.r ∧
      jsGet data (pixBase w x y + 1) = some t.g ∧
      jsGet data (pixBase w x y + 2) = some t.b ∧
      jsGet data (pixBase w x y + 3) = some t.a := by
  obtain ⟨tr, tg, tb, ta⟩ := t
  unfold pixelAt
  rcases h0 : jsGet data (pixBase w x y) with _ | r <;>
    rcases h1 : jsGet data (pixBase w x y + 1) with _ | g <;>
      rcases h2 : jsGet data (pixBase w x y + 2) with _ | b <;>
        rcases h3 : jsGet data (pixBase w x y + 3) with _ | a <;>
          simp [Rgba.mk.injEq, and_assoc]

theorem colorsMatch_iff (w : Nat) (data : List Nat) (c : Rgba) (x y : Int) :
    colorsMatch data c (pixBase w x y) = true ↔ pixelAt w data x y = some c := by
  rw [pixelAt_eq_some_iff]
  unfold colorsMatch
  simp [Bool.and_eq_true, beq_iff_eq, and_assoc]

theorem fillCond_iff (w : Nat) (t fc : Rgba) (data : List Nat) (x y : Int)
    (hne : t ≠ fc) :
    fillCond w (tcOf t) fc data x y = true ↔ pixelAt w data x y = some t := by
  simp only [fillCond, tcOf, Bool.and_eq_true, Bool.not_eq_true', beq_iff_eq]
  constructor
  · rintro ⟨⟨⟨⟨_, h0⟩, h1⟩, h2⟩, h3⟩
    exact (pixelAt_eq_some_iff w data x y t).mpr ⟨h0, h1, h2, h3⟩
  · intro hp
    obtain ⟨h0, h1, h2, h3⟩ := (pixelAt_eq_some_iff w data x y t).mp hp
    refine ⟨⟨⟨⟨?_, h0⟩, h1⟩, h2⟩, h3⟩
    cases hcm : colorsMatch data fc (pixBase w x y)
    · rfl
    · exfalso
      have hfc := (colorsMatch_iff w data fc x y).mp hcm
      rw [hp] at hfc
      exact hne (Option.some.inj hfc)

theorem fillCond_writePixel_self (w h : Nat) (tc : TColor) (fc : Rgba)
    (data : List Nat) {x y : Int} (hin : inBds w h x y)
    (hlen : data.length = 4 * w * h) :
    fillCond w tc fc (writePixel w fc data x y) x y = false := by
  have hcm : colorsMatch (writePixel w fc data x y) fc (pixBase w x y) = true :=
    (colorsMatch_iff w _ fc x y).mpr (pixelAt_writePixel_self w h fc data hin hlen)
  simp only [fillCond]
  rw [hcm]
  simp

theorem fillCond_writePixel_other (w h : Nat) (tc : TColor) (fc : Rgba)
    (data : List Nat) {x y x' y' : Int} (hp : inBds w h x y) (hq : inBds w h x' y')
    (hne : ¬(x' = x ∧ y' = y)) :
    fillCond w tc fc (writePixel w fc data x y) x' y'
      = fillCond w tc fc data x' y' := by
  have hs : ∀ j : Int, 0 ≤ j → j < 4 →
      jsGet (writePixel w fc data x y) (pixBase w x' y' + j)
        = jsGet data (pixBase w x' y' + j) := by
    intro j hj0 hj4
    refine jsGet_writePixel_outside w h fc data hp ?_
    intro i hi0 hi4
    have := pixBase_add_ne w h hq hp hne j i hj0 hj4 hi0 hi4
    omega
  have h0 := hs 0 (by norm_num) (by norm_num)
  have h1 := hs 1 (by norm_num) (by norm_num)
  have h2 := hs 2 (by norm_num) (by norm_num)
  have h3 := hs 3 (by norm_num) (by norm_num)
  rw [Int.add_zero] at h0
  simp only [fillCond, colorsMatch]
  rw [h0, h1, h2, h3]

theorem cntFill_writePixel_lt (w h : Nat) (tc : TColor) (fc : Rgba) (data : List Nat)
    {x y : Int} (hin : inBds w h x y) (hlen : data.length = 4 * w * h)
    (hc : fillCond w tc fc data x y = true) :
    cntFill w h tc fc (writePixel w fc data x y) < cntFill w h tc fc data := by
  classical
  obtain ⟨hx0, hxw, hy0, hyh⟩ := hin
  have hxx : ((x.toNat : Int)) = x := Int.toNat_of_nonneg hx0
  have hyy : ((y.toNat : Int)) = y := Int.toNat_of_nonneg hy0
  unfold cntFill
  have hpmem : (x.toNat, y.toNat) ∈ (Finset.range w ×ˢ Finset.range h).filter
      (fun q => fillCond w tc fc data (q.1 : Int) (q.2 : Int) = true) := by
    rw [Finset.mem_filter, Finset.mem_product, Finset.mem_range, Finset.mem_range]
    refine ⟨⟨by omega, by omega⟩, ?_⟩
    rw [hxx, hyy]
    exact hc
  have hsub : (Finset.range w ×ˢ Finset.range h).filter
      (fun q => fillCond w tc fc (writePixel w fc data x y) (q.1 : Int) (q.2 : Int) = true)
      ⊆ ((Finset.range w ×ˢ Finset.range h).filter
      (fun q => fillCond w tc fc data (q.1 : Int) (q.2 : Int) = true)).erase
        (x.toNat, y.toNat) := by
    intro q hq
    rw [Finset.mem_filter, Finset.mem_product, Finset.mem_range, Finset.mem_range] at hq
    obtain ⟨⟨hq1, hq2⟩, hqc⟩ := hq
    have hqin : inBds w h (q.1 : Int) (q.2 : Int) := ⟨by omega, by omega, by omega, by omega⟩
    have hqne : ¬((q.1 : Int) = x ∧ (q.2 : Int) = y) := by
      rintro ⟨he1, he2⟩
      rw [he1, he2,
        fillCond_writePixel_self w h tc fc data ⟨hx0, hxw, hy0, hyh⟩ hlen] at hqc
      exact Bool.false_ne_true hqc
    rw [Finset.mem_erase, Finset.mem_filter, Finset.mem_product, Finset.mem_range,
      Finset.mem_range]
    refine ⟨?_, ⟨by omega, by omega⟩, ?_⟩
    · intro he
      apply hqne
      rw [Prod.mk.injEq] at he
      constructor
      · rw [he.1, hxx]
      · rw [he.2, hyy]
    · rw [← fillCond_writePixel_other w h tc fc data ⟨hx0, hxw, hy0, hyh⟩ hqin hqne]
      exact hqc
  have h1 := Finset.card_le_card hsub
  rw [Finset.card_erase_of_mem hpmem] at h1
  have h2 : 0 < ((Finset.range w ×ˢ Finset.range h).filter
      (fun q => fillCond w tc fc data (q.1 : Int) (q.2 : Int) = true)).card :=
    Finset.card_pos.mpr ⟨_, hpmem⟩
  omega

theorem cntFill_le (w h : Nat) (tc : TColor) (fc : Rgba) (data : List Nat) :
    cntFill w h tc fc data ≤ w * h := by
  unfold cntFill
  calc ((Finset.range w ×ˢ Finset.range h).filter _).card
      ≤ (Finset.range w ×ˢ Finset.range h).card := Finset.card_filter_le _ _
    _ = w * h := by rw [Finset.card_product, Finset.card_range, Finset.card_range]

/-! ## Flood fill: the loop invariant -/

theorem out_iff_not_inBds (w h : Nat) (x y : Int) :
    (x < 0 ∨ (w : Int) ≤ x ∨ y < 0 ∨ (h : Int) ≤ y) ↔ ¬ inBds w h x y := by
  unfold inBds
  omega

theorem Reach.facts {w h : Nat} {orig : List Nat} {t : Rgba} {sx sy x y : Int}
    (hr : Reach w h orig t sx sy x y) :
    inBds w h x y ∧ pixelAt w orig x y = some t := by
  cases hr with
  | refl h1 h2 => exact ⟨h1, h2⟩
  | step _ _ h1 h2 => exact ⟨h1, h2⟩

theorem Filled_Reach {w h : Nat} {orig : List Nat} {t fc : Rgba} {sx sy : Int}
    {data : List Nat} {stack : List (Int × Int)} (hne : t ≠ fc)
    (inv : LoopInv w h orig t fc sx sy data stack) {x y : Int}
    (hf : Filled w h orig t fc data x y) : Reach w h orig t sx sy x y := by
  obtain ⟨hin, ho, hd⟩ := hf
  rcases inv.pres x y hin with hsame | ⟨_, _, hr⟩
  · exfalso
    rw [hsame, ho] at hd
    exact hne (Option.some.inj hd)
  · exact hr

theorem Filled_writePixel_mono {w h : Nat} {orig : List Nat} {t fc : Rgba}
    {data : List Nat} {x y : Int} (hin : inBds w h x y)
    (hlen : data.length = 4 * w * h) {x' y' : Int}
    (hf : Filled w h orig t fc data x' y') :
    Filled w h orig t fc (writePixel w fc data x y) x' y' := by
  obtain ⟨hq, ho, hd⟩ := hf
  refine ⟨hq, ho, ?_⟩
  by_cases he : x' = x ∧ y' = y
  · obtain ⟨e1, e2⟩ := he
    subst e1
    subst e2
    exact pixelAt_writePixel_self w h fc data hin hlen
  · rw [pixelAt_writePixel_other w h fc data hin hq he]
    exact hd

theorem adj_mem_pushes {x y x' y' : Int} (ha : adj x y x' y')
    (rest : List (Int × Int)) :
    (x', y') ∈ ((x, y - 1) :: (x, y + 1) :: (x - 1, y) :: (x + 1, y) :: rest) := by
  rcases ha with ⟨h1, h2⟩ | ⟨h1, h2⟩ | ⟨h1, h2⟩ | ⟨h1, h2⟩ <;> subst h1 <;> subst h2 <;>
    simp [List.mem_cons]

/-- Main invariant preservation: running the loop with fuel at least the
termination measure empties the stack and preserves the invariant. -/
theorem floodLoop_inv (w h : Nat) (orig : List Nat) (t fc : Rgba) (sx sy : Int)
    (hlen : orig.length = 4 * w * h) (hne : t ≠ fc) (hsin : inBds w h sx sy)
    (hseedc : pixelAt w orig sx sy = some t) :
    ∀ n data stack, LoopInv w h orig t fc sx sy data stack →
      loopMeasure w h (tcOf t) fc data stack ≤ n →
      LoopInv w h orig t fc sx sy (floodLoop w h (tcOf t) fc n data stack) [] := by
  intro n
  induction n with
  | zero =>
    intro data stack inv hm
    have hs : stack = [] := by
      unfold loopMeasure at hm
      cases stack with
      | nil => rfl
      | cons a l => simp [List.length_cons] at hm
    subst hs
    exact inv
  | succ n ih =>
    intro data stack inv hm
    rcases stack with _ | ⟨⟨x, y⟩, rest⟩
    · exact inv
    have hmlen : 5 * cntFill w h (tcOf t) fc data + (rest.length + 1) ≤ n + 1 := by
      unfold loopMeasure at hm
      simpa using hm
    have hdlen : data.length = 4 * w * h := by rw [inv.len, hlen]
    simp only [floodLoop]
    by_cases hout : x < 0 ∨ (w : Int) ≤ x ∨ y < 0 ∨ (h : Int) ≤ y
    · rw [if_pos hout]
      have hnin : ¬ inBds w h x y := (out_iff_not_inBds w h x y).mp hout
      refine ih data rest ⟨inv.len, inv.pres, ?_, ?_, ?_⟩ ?_
      · intro a b hf a' b' hadj hin' ho'
        rcases inv.frontier a b hf a' b' hadj hin' ho' with hF | hmem
        · exact Or.inl hF
        · rcases List.mem_cons.mp hmem with he | hmem'
          · exfalso
            rw [Prod.mk.injEq] at he
            obtain ⟨e1, e2⟩ := he
            subst e1
            subst e2
            exact hnin hin'
          · exact Or.inr hmem'
      · rcases inv.seedOk with hF | hmem
        · exact Or.inl hF
        · rcases List.mem_cons.mp hmem with he | hmem'
          · exfalso
            rw [Prod.mk.injEq] at he
            obtain ⟨e1, e2⟩ := he
            rw [e1, e2] at hsin
            exact hnin hsin
          · exact Or.inr hmem'
      · intro a b hmem
        rcases inv.stackOk a b (List.mem_cons_of_mem _ hmem) with hs | hs
        · exact Or.inl hs
        · exact Or.inr hs
      · unfold loopMeasure
        omega
    · have hin : inBds w h x y := by unfold inBds; omega
      rw [if_neg hout]
      by_cases hc : fillCond w (tcOf t) fc data x y = true
      · rw [if_pos hc]
        have hdata : pixelAt w data x y = some t := (fillCond_iff w t fc data x y hne).mp hc
        have horig : pixelAt w orig x y = some t := by
          rcases inv.pres x y hin with hsame | ⟨ho2, hfc2, _⟩
          · rw [← hsame]
            exact hdata
          · exfalso
            rw [hdata] at hfc2
            exact hne (Option.some.inj hfc2)
        have hreach : Reach w h orig t sx sy x y := by
          rcases inv.stackOk x y (List.mem_cons_self _ _) with ⟨e1, e2⟩ | ⟨a, b, hF, hadj⟩
          · subst e1
            subst e2
            exact Reach.refl hsin hseedc
          · exact Reach.step (Filled_Reach hne inv hF) hadj hin horig
        have hFp : Filled w h orig t fc (writePixel w fc data x y) x y :=
          ⟨hin, horig, pixelAt_writePixel_self w h fc data hin hdlen⟩
        have hmono : ∀ a b : Int, Filled w h orig t fc data a b →
            Filled w h orig t fc (writePixel w fc data x y) a b :=
          fun a b hf => Filled_writePixel_mono hin hdlen hf
        have hchar : ∀ a b : Int, Filled w h orig t fc (writePixel w fc data x y) a b →
            Filled w h orig t fc data a b ∨ (a = x ∧ b = y) := by
          intro a b hf
          obtain ⟨hq, ho, hd⟩ := hf
          by_cases he : a = x ∧ b = y
          · exact Or.inr he
          · rw [pixelAt_writePixel_other w h fc data hin hq he] at hd
            exact Or.inl ⟨hq, ho, hd⟩
        refine ih (writePixel w fc data x y)
          ((x, y - 1) :: (x, y + 1) :: (x - 1, y) :: (x + 1, y) :: rest)
          ⟨(writePixel_length w fc data x y).trans inv.len, ?_, ?_, ?_, ?_⟩ ?_
        · -- pres
          intro a b hab
          by_cases he : a = x ∧ b = y
          · obtain ⟨e1, e2⟩ := he
            subst e1
            subst e2
            exact Or.inr ⟨horig, pixelAt_writePixel_self w h fc data hin hdlen, hreach⟩
          · rw [pixelAt_writePixel_other w h fc data hin hab he]
            exact inv.pres a b hab
        · -- frontier
          intro a b hf a' b' hadj hin' ho'
          rcases hchar a b hf with hFold | ⟨e1, e2⟩
          · rcases inv.frontier a b hFold a' b' hadj hin' ho' with hF | hmem
            · exact Or.inl (hmono _ _ hF)
            · rcases List.mem_cons.mp hmem with he | hmem'
              · rw [Prod.mk.injEq] at he
                obtain ⟨e1, e2⟩ := he
                subst e1
                subst e2
                exact Or.inl hFp
              · exact Or.inr (by
                  simp only [List.mem_cons]
                  exact Or.inr (Or.inr (Or.inr (Or.inr hmem'))))
          · subst e1
            subst e2
            exact Or.inr (adj_mem_pushes hadj rest)
        · -- seedOk
          rcases inv.seedOk with hF | hmem
          · exact Or.inl (hmono _ _ hF)
          · rcases List.mem_cons.mp hmem with he | hmem'
            · rw [Prod.mk.injEq] at he
              obtain ⟨e1, e2⟩ := he
              rw [e1, e2]
              exact Or.inl hFp
            · exact Or.inr (by
                simp only [List.mem_cons]
                exact Or.inr (Or.inr (Or.inr (Or.inr hmem'))))
        · -- stackOk
          intro a b hmem
          simp only [List.mem_cons] at hmem
          rcases hmem with he | he | he | he | hmem'
          · rw [Prod.mk.injEq] at he
            exact Or.inr ⟨x, y, hFp, Or.inr (Or.inr (Or.inr ⟨he.1, he.2⟩))⟩
          · rw [Prod.mk.injEq] at he
            exact Or.inr ⟨x, y, hFp, Or.inr (Or.inr (Or.inl ⟨he.1, he.2⟩))⟩
          · rw [Prod.mk.injEq] at he
            exact Or.inr ⟨x, y, hFp, Or.inr (Or.inl ⟨he.1, he.2⟩)⟩
          · rw [Prod.mk.injEq] at he
            exact Or.inr ⟨x, y, hFp, Or.inl ⟨he.1, he.2⟩⟩
          · rcases inv.stackOk a b (List.mem_cons_of_mem _ hmem') with hs | ⟨a', b', hF, hadj⟩
            · exact Or.inl hs
            · exact Or.inr ⟨a', b', hmono _ _ hF, hadj⟩
        · -- measure
          have hlt := cntFill_writePixel_lt w h (tcOf t) fc data hin hdlen hc
          unfold loopMeasure
          simp only [List.length_cons]
          omega
      · rw [if_neg hc]
        have hfilled : pixelAt w orig x y = some t → Filled w h orig t fc data x y := by
          intro ho'
          have hnt : ¬ pixelAt w data x y = some t := fun hp =>
            hc ((fillCond_iff w t fc data x y hne).mpr hp)
          rcases inv.pres x y hin with hsame | ⟨ho2, hfc2, _⟩
          · exact absurd (hsame.trans ho') hnt
          · exact ⟨hin, ho2, hfc2⟩
        refine ih data rest ⟨inv.len, inv.pres, ?_, ?_, ?_⟩ ?_
        · intro a b hf a' b' hadj hin' ho'
          rcases inv.frontier a b hf a' b' hadj hin' ho' with hF | hmem
          · exact Or.inl hF
          · rcases List.mem_cons.mp hmem with he | hmem'
            · rw [Prod.mk.injEq] at he
              obtain ⟨e1, e2⟩ := he
              subst e1
              subst e2
              exact Or.inl (hfilled ho')
            · exact Or.inr hmem'
        · rcases inv.seedOk with hF | hmem
          · exact Or.inl hF
          · rcases List.mem_cons.mp hmem with he | hmem'
            · rw [Prod.mk.injEq] at he
              obtain ⟨e1, e2⟩ := he
              rw [e1, e2]
              rw [e1, e2] at hseedc
              exact Or.inl (hfilled hseedc)
            · exact Or.inr hmem'
        · intro a b hmem
          rcases inv.stackOk a b (List.mem_cons_of_mem _ hmem) with hs | hs
          · exact Or.inl hs
          · exact Or.inr hs
        · unfold loopMeasure
          omega

/-! ## Flood fill: assembling the claims -/

theorem loopInv_init (w h : Nat) (orig : List Nat) (t fc : Rgba) (sx sy : Int)
    (hne : t ≠ fc) : LoopInv w h orig t fc sx sy orig [(sx, sy)] := by
  refine ⟨rfl, fun a b _ => Or.inl rfl, ?_, Or.inr (List.mem_singleton.mpr rfl), ?_⟩
  · intro a b hf
    exfalso
    obtain ⟨_, ho, hd⟩ := hf
    rw [ho] at hd
    exact hne (Option.some.inj hd)
  · intro a b hmem
    have he := List.mem_singleton.mp hmem
    rw [Prod.mk.injEq] at he
    exact Or.inl he

theorem loopInv_reach_filled {w h : Nat} {orig : List Nat} {t fc : Rgba}
    {sx sy : Int} {data : List Nat}
    (inv : LoopInv w h orig t fc sx sy data []) {x y : Int}
    (hr : Reach w h orig t sx sy x y) : Filled w h orig t fc data x y := by
  induction hr with
  | refl h1 h2 =>
    rcases inv.seedOk with hF | hmem
    · exact hF
    · simp at hmem
  | step hr' hadj hin' ho' ih =>
    rcases inv.frontier _ _ ih _ _ hadj hin' ho' with hF | hmem
    · exact hF
    · simp at hmem

theorem floodFill_eq_loop (w h : Nat) (data : List Nat) (sx sy : Int)
    (hex : List Char) {t : Rgba} (ht : pixelAt w data sx sy = some t)
    (hne : t ≠ hexToRgba hex) :
    floodFill w h data sx sy hex =
      floodLoop w h (tcOf t) (hexToRgba hex) (5 * w * h + 1) data [(sx, sy)] := by
  obtain ⟨h0, h1, h2, h3⟩ := (pixelAt_eq_some_iff w data sx sy t).mp ht
  have hcond : (some t.r == some (hexToRgba hex).r &&
      some t.g == some (hexToRgba hex).g && some t.b == some (hexToRgba hex).b &&
      some t.a == some (hexToRgba hex).a) = false := by
    cases hb : (some t.r == some (hexToRgba hex).r &&
        some t.g == some (hexToRgba hex).g && some t.b == some (hexToRgba hex).b &&
        some t.a == some (hexToRgba hex).a)
    · rfl
    · exfalso
      simp only [Bool.and_eq_true, beq_iff_eq, Option.some.injEq] at hb
      exact hne (Rgba.ext hb.1.1.1 hb.1.1.2 hb.1.2 hb.2)
  simp only [floodFill]
  rw [h0, h1, h2, h3]
  rw [if_neg (by rw [hcond]; exact Bool.false_ne_true)]
  rfl

theorem floodFill_noop (w h : Nat) (data : List Nat) (sx sy : Int) (hex : List Char)
    (hmatch : pixelAt w data sx sy = some (hexToRgba hex)) :
    floodFill w h data sx sy hex = data := by
  obtain ⟨h0, h1, h2, h3⟩ := (pixelAt_eq_some_iff w data sx sy (hexToRgba hex)).mp hmatch
  simp only [floodFill]
  rw [h0, h1, h2, h3]
  rw [if_pos (by simp)]

/-- C1: with an in-bounds seed whose captured target color differs from the
fill color, floodFill sets to the fill color exactly the pixels 4-connected
to the seed through pixels of the original target color, and leaves every
other pixel of the buffer unchanged. -/
theorem floodFill_correct (w h : Nat) (data : List Nat) (sx sy : Int)
    (hex : List Char) (hlen : data.length = 4 * w * h) (hsin : inBds w h sx sy)
    (t : Rgba) (ht : pixelAt w data sx sy = some t) (hne : t ≠ hexToRgba hex) :
    (floodFill w h data sx sy hex).length = data.length ∧
    ∀ x y, inBds w h x y →
      (Reach w h data t sx sy x y →
        pixelAt w (floodFill w h data sx sy hex) x y = some (hexToRgba hex)) ∧
      (¬ Reach w h data t sx sy x y →
        pixelAt w (floodFill w h data sx sy hex) x y = pixelAt w data x y) := by
  rw [floodFill_eq_loop w h data sx sy hex ht hne]
  have hm : loopMeasure w h (tcOf t) (hexToRgba hex) data [(sx, sy)] ≤ 5 * w * h + 1 := by
    unfold loopMeasure
    have := cntFill_le w h (tcOf t) (hexToRgba hex) data
    have h5 : 5 * (w * h) = 5 * w * h := by ring
    simp only [List.length_singleton]
    omega
  have hinv := floodLoop_inv w h data t (hexToRgba hex) sx sy hlen hne hsin ht
    (5 * w * h + 1) data [(sx, sy)] (loopInv_init w h data t (hexToRgba hex) sx sy hne) hm
  refine ⟨hinv.len, ?_⟩
  intro x y hxy
  constructor
  · intro hr
    exact (loopInv_reach_filled hinv hr).2.2
  · intro hnr
    rcases hinv.pres x y hxy with hsame | ⟨_, _, hr⟩
    · exact hsame
    · exact absurd hr hnr

/-- Witness for the flood-fill correctness claim on a 1 by 1 black canvas
filled with red from its only pixel. -/
theorem floodFill_correct_witness :
    pixelAt 1 (floodFill 1 1 [0, 0, 0, 0] 0 0 ['#', 'f', 'f', '0', '0', '0', '0']) 0 0
      = some ⟨255, 0, 0, 255⟩ := by
  have h := floodFill_correct 1 1 [0, 0, 0, 0] 0 0 ['#', 'f', 'f', '0', '0', '0', '0']
    (by decide) (by decide) ⟨0, 0, 0, 0⟩ (by decide) (by decide)
  have h2 := (h.2 0 0 (by decide)).1 (Reach.refl (by decide) (by decide))
  exact h2.trans (by decide)

/-- C5: if the seed pixel already carries the fill color the pass is a
no-op, and consequently floodFill is idempotent at any in-bounds seed. -/
theorem floodFill_noop_idem (w h : Nat) (data : List Nat) (sx sy : Int)
    (hex : List Char) (hlen : data.length = 4 * w * h) (hsin : inBds w h sx sy) :
    (pixelAt w data sx sy = some (hexToRgba hex) → floodFill w h data sx sy hex = data) ∧
    floodFill w h (floodFill w h data sx sy hex) sx sy hex
      = floodFill w h data sx sy hex := by
  refine ⟨floodFill_noop w h data sx sy hex, ?_⟩
  obtain ⟨t, ht⟩ := pixelAt_isSome w h data hsin hlen
  by_cases he : t = hexToRgba hex
  · rw [he] at ht
    rw [floodFill_noop w h data sx sy hex ht, floodFill_noop w h data sx sy hex ht]
  · have hcor := floodFill_correct w h data sx sy hex hlen hsin t ht he
    have hseedfill := (hcor.2 sx sy hsin).1 (Reach.refl hsin ht)
    exact floodFill_noop w h _ sx sy hex hseedfill

/-- Witness for the no-op and idempotence claim on a 1 by 1 canvas. -/
theorem floodFill_noop_idem_witness :
    floodFill 1 1 (floodFill 1 1 [1, 2, 3, 4] 0 0 ['#', 'f', 'f', '0', '0', '0', '0'])
        0 0 ['#', 'f', 'f', '0', '0', '0', '0']
      = floodFill 1 1 [1, 2, 3, 4] 0 0 ['#', 'f', 'f', '0', '0', '0', '0'] :=
  (floodFill_noop_idem 1 1 [1, 2, 3, 4] 0 0 ['#', 'f', 'f', '0', '0', '0', '0']
    (by decide) (by decide)).2

theorem floodLoop_nil (w h : Nat) (tc : TColor) (fc : Rgba) :
    ∀ m data, floodLoop w h tc fc m data [] = data := by
  intro m data
  cases m <;> rfl

theorem floodLoop_fuel_add (w h : Nat) (tc : TColor) (fc : Rgba) :
    ∀ n k data stack, data.length = 4 * w * h →
      loopMeasure w h tc fc data stack ≤ n →
      floodLoop w h tc fc (n + k) data stack = floodLoop w h tc fc n data stack := by
  intro n
  induction n with
  | zero =>
    intro k data stack hlen hm
    have hs : stack = [] := by
      unfold loopMeasure at hm
      cases stack with
      | nil => rfl
      | cons a l => simp [List.length_cons] at hm
    subst hs
    rw [floodLoop_nil, floodLoop_nil]
  | succ n ih =>
    intro k data stack hlen hm
    rcases stack with _ | ⟨⟨x, y⟩, rest⟩
    · rw [floodLoop_nil, floodLoop_nil]
    have hmlen : 5 * cntFill w h tc fc data + (rest.length + 1) ≤ n + 1 := by
      unfold loopMeasure at hm
      simpa using hm
    have e : n + 1 + k = (n + k) + 1 := by omega
    rw [e]
    simp only [floodLoop]
    by_cases hout : x < 0 ∨ (w : Int) ≤ x ∨ y < 0 ∨ (h : Int) ≤ y
    · rw [if_pos hout, if_pos hout]
      exact ih k data rest hlen (by unfold loopMeasure; omega)
    · rw [if_neg hout, if_neg hout]
      have hin : inBds w h x y := by unfold inBds; omega
      by_cases hc : fillCond w tc fc data x y = true
      · rw [if_pos hc, if_pos hc]
        have hlt := cntFill_writePixel_lt w h tc fc data hin hlen hc
        refine ih k _ _ ((writePixel_length w fc data x y).trans hlen) ?_
        unfold loopMeasure
        simp only [List.length_cons]
        omega
      · rw [if_neg hc, if_neg hc]
        exact ih k data rest hlen (by unfold loopMeasure; omega)

/-- C7: the explicit-stack loop terminates within a fuel bound of five
times the pixel count plus the initial stack length: any fuel at least
that bound produces the same final buffer, so the loop, and with it
floodFill (which runs the loop with that very fuel), is total. -/
theorem floodLoop_fuel_irrelevant (w h : Nat) (tc : TColor) (fc : Rgba)
    (data : List Nat) (stack : List (Int × Int)) (hlen : data.length = 4 * w * h)
    (n : Nat) (hn : 5 * w * h + stack.length ≤ n) :
    floodLoop w h tc fc n data stack
      = floodLoop w h tc fc (5 * w * h + stack.length) data stack := by
  have hm : loopMeasure w h tc fc data stack ≤ 5 * w * h + stack.length := by
    unfold loopMeasure
    have := cntFill_le w h tc fc data
    have h5 : 5 * (w * h) = 5 * w * h := by ring
    omega
  have e1 : n = (5 * w * h + stack.length) + (n - (5 * w * h + stack.length)) := by omega
  rw [e1, floodLoop_fuel_add w h tc fc _ _ data stack hlen hm]

/-- Witness for the termination claim: on a 1 by 1 buffer, fuel 99 and the
sufficient fuel 6 compute the same result. -/
theorem floodLoop_fuel_irrelevant_witness :
    floodLoop 1 1 (tcOf ⟨0, 0, 0, 0⟩) ⟨255, 0, 0, 255⟩ 99 [0, 0, 0, 0] [(0, 0)]
      = floodLoop 1 1 (tcOf ⟨0, 0, 0, 0⟩) ⟨255, 0, 0, 255⟩ (5 * 1 * 1 + 1)
          [0, 0, 0, 0] [(0, 0)] :=
  floodLoop_fuel_irrelevant 1 1 (tcOf ⟨0, 0, 0, 0⟩) ⟨255, 0, 0, 255⟩
    [0, 0, 0, 0] [(0, 0)] (by decide) 99 (by decide)

theorem pixelAt_replicate (w h : Nat) (c : Nat) {x y : Int} (hin : inBds w h x y) :
    pixelAt w (List.replicate (4 * w * h) c) x y = some ⟨c, c, c, c⟩ := by
  have hread : ∀ i : Int, 0 ≤ i → i < 4 →
      jsGet (List.replicate (4 * w * h) c) (pixBase w x y + i) = some c := by
    intro i hi0 hi4
    have hlt : (pixBase w x y + i).toNat < (List.replicate (4 * w * h) c).length := by
      rw [List.length_replicate]
      exact pixBase_add_lt w h hin i hi0 hi4
    unfold jsGet
    rw [if_pos (by have := pixBase_nonneg w h hin; omega), List.get?_eq_get hlt,
      List.get_replicate]
  have h0 := hread 0 (by norm_num) (by norm_num)
  have h1 := hread 1 (by norm_num) (by norm_num)
  have h2 := hread 2 (by norm_num) (by norm_num)
  have h3 := hread 3 (by norm_num) (by norm_num)
  rw [Int.add_zero] at h0
  unfold pixelAt
  rw [h0, h1, h2, h3]

/-- Every in-bounds pixel of a buffer that is everywhere of color t is
4-connected to the corner (0, 0) through pixels of color t. -/
theorem reach_of_uniform (w h : Nat) (orig : List Nat) (t : Rgba)
    (hall : ∀ x y : Int, inBds w h x y → pixelAt w orig x y = some t) :
    ∀ x y : Int, inBds w h x y → Reach w h orig t 0 0 x y := by
  have key : ∀ n : Nat, ∀ x y : Int, inBds w h x y → (x + y).toNat = n →
      Reach w h orig t 0 0 x y := by
    intro n
    induction n with
    | zero =>
      intro x y hin hsum
      obtain ⟨hx0, hxw, hy0, hyh⟩ := hin
      have hx : x = 0 := by omega
      have hy : y = 0 := by omega
      subst hx
      subst hy
      exact Reach.refl ⟨hx0, hxw, hy0, hyh⟩ (hall 0 0 ⟨hx0, hxw, hy0, hyh⟩)
    | succ n ih =>
      intro x y hin hsum
      obtain ⟨hx0, hxw, hy0, hyh⟩ := hin
      by_cases hx : 0 < x
      · have hin' : inBds w h (x - 1) y := ⟨by omega, by omega, by omega, by omega⟩
        have hr := ih (x - 1) y hin' (by omega)
        exact Reach.step hr (Or.inl ⟨by ring, rfl⟩) ⟨hx0, hxw, hy0, hyh⟩
          (hall x y ⟨hx0, hxw, hy0, hyh⟩)
      · have hin' : inBds w h x (y - 1) := ⟨by omega, by omega, by omega, by omega⟩
        have hr := ih x (y - 1) hin' (by omega)
        exact Reach.step hr (Or.inr (Or.inr (Or.inl ⟨rfl, by ring⟩)))
          ⟨hx0, hxw, hy0, hyh⟩ (hall x y ⟨hx0, hxw, hy0, hyh⟩)
  exact fun x y hin => key (x + y).toNat x y hin rfl

set_option maxRecDepth 4000 in
/-- C8: floodFill never writes outside the canvas: an out-of-bounds
coordinate popped from the stack is silently skipped, a truncated seed that
lies out of bounds leaves the buffer entirely unchanged, and seeding at
(0, 0) on a uniform white 10 by 10 canvas with fill FF0000 yields a buffer
whose 100 pixels all read (255, 0, 0, 255). -/
theorem floodFill_safety :
    (∀ (w h : Nat) (tc : TColor) (fc : Rgba) (n : Nat) (data : List Nat) (x y : Int)
        (rest : List (Int × Int)), ¬ inBds w h x y →
      floodLoop w h tc fc (n + 1) data ((x, y) :: rest)
        = floodLoop w h tc fc n data rest) ∧
    (∀ (w h : Nat) (data : List Nat) (sx sy : Int) (hex : List Char),
      ¬ inBds w h sx sy → floodFill w h data sx sy hex = data) ∧
    (floodFill 10 10 (List.replicate 400 255) 0 0
        ['#', 'F', 'F', '0', '0', '0', '0']).length = 400 ∧
    (∀ x y : Int, inBds 10 10 x y →
      pixelAt 10 (floodFill 10 10 (List.replicate 400 255) 0 0
          ['#', 'F', 'F', '0', '0', '0', '0']) x y = some ⟨255, 0, 0, 255⟩) := by
  have hskip : ∀ (w h : Nat) (tc : TColor) (fc : Rgba) (n : Nat) (data : List Nat)
      (x y : Int) (rest : List (Int × Int)), ¬ inBds w h x y →
      floodLoop w h tc fc (n + 1) data ((x, y) :: rest)
        = floodLoop w h tc fc n data rest := by
    intro w h tc fc n data x y rest hout
    simp only [floodLoop]
    rw [if_pos ((out_iff_not_inBds w h x y).mpr hout)]
  have hall : ∀ x y : Int, inBds 10 10 x y →
      pixelAt 10 (List.replicate 400 255) x y = some ⟨255, 255, 255, 255⟩ :=
    fun x y hin => pixelAt_replicate 10 10 255 hin
  have ht : pixelAt 10 (List.replicate 400 255) 0 0 = some ⟨255, 255, 255, 255⟩ :=
    hall 0 0 (by decide)
  have hcor := floodFill_correct 10 10 (List.replicate 400 255) 0 0
    ['#', 'F', 'F', '0', '0', '0', '0'] (by decide) (by decide)
    ⟨255, 255, 255, 255⟩ ht (by decide)
  refine ⟨hskip, ?_, ?_, ?_⟩
  · intro w h data sx sy hex hout
    simp only [floodFill]
    by_cases hcond : (jsGet data (pixBase w sx sy) == some (hexToRgba hex).r &&
        jsGet data (pixBase w sx sy + 1) == some (hexToRgba hex).g &&
        jsGet data (pixBase w sx sy + 2) == some (hexToRgba hex).b &&
        jsGet data (pixBase w sx sy + 3) == some (hexToRgba hex).a) = true
    · rw [if_pos hcond]
    · rw [if_neg hcond]
      rw [hskip w h _ _ (5 * w * h) data sx sy [] hout]
      exact floodLoop_nil w h _ _ (5 * w * h) data
  · rw [hcor.1]
    rfl
  · intro x y hin
    have hfill := (hcor.2 x y hin).1
      (reach_of_uniform 10 10 (List.replicate 400 255) ⟨255, 255, 255, 255⟩ hall x y hin)
    rw [hfill]
    decide

/-- Witness for the bounds claim: an out-of-bounds seed on a 2 by 2 black
canvas leaves the buffer unchanged. -/
theorem floodFill_safety_witness :
    floodFill 2 2 (List.replicate 16 0) (-1) 0 ['#', 'f', 'f', '0', '0', '0', '0']
      = List.replicate 16 0 :=
  floodFill_safety.2.1 2 2 (List.replicate 16 0) (-1) 0
    ['#', 'f', 'f', '0', '0', '0', '0'] (by decide)

end Doodle
